import Mathlib

/-!
# GP-HIK core: classification tables, label decomposition, variance bound, MATLAB converter

A shallow embedding of the parts of gp-hik-core that the verified properties
talk about.  Member names follow the class declarations in
`FMKGPHyperparameterOptimization.h` and `GPHIKRawClassifier.h`.  The bodies of
the member functions and the class `FastMinKernel` live in files outside the
sources covered here; their behaviour is modelled from the specification, and
every such definition says so in its doc comment.  The two converters of
`matlab/ConverterNICEToMatlab.cpp` are embedded from their code.

Feature values and weights are exact rationals (reals for the variance bound):
the development covers the algebra of the tables and of the bound, not the
rounding of `double`.
-/

namespace GPHIK

open Matrix

/-! ## Data model -/

/-- Class numbers are unsigned integers (`uint` in both headers). -/
abbrev ClassId := Nat

/-- Modelled from the spec: the FeatureStore (class `FastMinKernel`, member
`fmk`, whose code is not part of the sources).  The spec describes it as
"sorted per-dimension feature values plus example indices": for each feature
dimension the (transformed) training values in ascending order, each paired
with the index of the example it belongs to. -/
structure FastMinKernel where
  n : Nat
  sortedDims : List (List (ℚ × Nat))

/-- The type `PrecomputedType` of the header (`VVector`): one numeric vector per
feature dimension, indexed by sorted rank. -/
abbrev PrecomputedType := List (List ℚ)

/-- The members of `FMKGPHyperparameterOptimization` that the modelled member
functions read and write.  A `std::map<uint, _>` is the list of its
`(key, value)` pairs in iteration order (ascending key). -/
structure Model where
  fmk : FastMinKernel
  precomputedA : List (ClassId × PrecomputedType)
  precomputedB : List (ClassId × PrecomputedType)
  i_binaryLabelPositive : ClassId
  i_binaryLabelNegative : ClassId

/-! ## Feature store -/

/-- Feature value of example `i` in dimension `d` of a training set given as
one dense row per example (missing entries are zero). -/
def featureValue (X : List (List ℚ)) (i d : Nat) : ℚ :=
  (X.getD i []).getD d 0

/-- The values of dimension `d` over all examples, each with its example index. -/
def featureColumn (X : List (List ℚ)) (d : Nat) : List (ℚ × Nat) :=
  (List.range X.length).map fun i => (featureValue X i d, i)

/-- Modelled from the spec: building the FeatureStore from the training
examples, sorting every dimension by value ("sorted per-dimension feature
values plus example indices"). -/
def FastMinKernel.ofExamples (X : List (List ℚ)) (numDims : Nat) : FastMinKernel :=
  { n := X.length
    sortedDims := (List.range numDims).map fun d =>
      (featureColumn X d).insertionSort (fun a b => a.1 ≤ b.1) }

/-! ## Tables A and B -/

/-- Sums of the leading elements: entry `r` is the sum of the first `r` elements. -/
def leadingSums : List ℚ → List ℚ
  | [] => [0]
  | a :: as => 0 :: (leadingSums as).map (a + ·)

/-- Sums of the remaining elements: entry `r` is the sum of all elements from
position `r` on. -/
def trailingSums : List ℚ → List ℚ
  | [] => [0]
  | a :: as => (a + (trailingSums as).headD 0) :: trailingSums as

/-- Modelled from the spec: table A of one class in one dimension.  "A holds,
per feature dimension, partial sums over the sorted example order": entry `r`
is the sum of `alpha_i * x_i` over the `r` smallest training values. -/
def tableA (col : List (ℚ × Nat)) (alpha : List ℚ) : List ℚ :=
  leadingSums (col.map fun e => alpha.getD e.2 0 * e.1)

/-- Modelled from the spec: table B of one class in one dimension.  "B holds
the complementary partial sums": entry `r` is the sum of `alpha_i` over the
training values from sorted rank `r` on. -/
def tableB (col : List (ℚ × Nat)) (alpha : List ℚ) : List ℚ :=
  trailingSums (col.map fun e => alpha.getD e.2 0)

/-- Modelled from the spec: the sorted rank of a query value among the training
values of one dimension (a lookup in the FeatureStore's sorted access): the
number of leading training values that do not exceed it. -/
def sortedRank (col : List (ℚ × Nat)) (v : ℚ) : Nat :=
  (col.takeWhile fun e => decide (e.1 ≤ v)).length

/-- Modelled from the spec: the value reconstructed from tables A and B in one
dimension for the query value `v`: the A entry at the rank of `v` plus `v`
times the B entry at that rank. -/
def kernelSumDim (A B : List ℚ) (col : List (ℚ × Nat)) (v : ℚ) : ℚ :=
  A.getD (sortedRank col v) 0 + v * B.getD (sortedRank col v) 0

/-- Modelled from the spec: the part of `computeMatricesAndLUTs` that builds
table A of one class from its solved weight vector `alpha`. -/
def computeA (fmk : FastMinKernel) (alpha : List ℚ) : PrecomputedType :=
  fmk.sortedDims.map fun col => tableA col alpha

/-- Modelled from the spec: the part of `computeMatricesAndLUTs` that builds
table B of one class from its solved weight vector `alpha`. -/
def computeB (fmk : FastMinKernel) (alpha : List ℚ) : PrecomputedType :=
  fmk.sortedDims.map fun col => tableB col alpha

/-- Table A of every class with a solved weight vector. -/
def computeMatricesA (fmk : FastMinKernel) (alphas : List (ClassId × List ℚ)) :
    List (ClassId × PrecomputedType) :=
  alphas.map fun ca => (ca.1, computeA fmk ca.2)

/-- Table B of every class with a solved weight vector. -/
def computeMatricesB (fmk : FastMinKernel) (alphas : List (ClassId × List ℚ)) :
    List (ClassId × PrecomputedType) :=
  alphas.map fun ca => (ca.1, computeB fmk ca.2)

/-- Modelled from the spec: `computeMatricesAndLUTs`, whose body is not part of
the sources: "for each known class, compute A/B ... from the current transformed
FeatureStore and the class's solved alpha vector".  The solved weight vectors
`alphas` (one per class, from the external solver) are an argument. -/
def computeMatricesAndLUTs (m : Model) (alphas : List (ClassId × List ℚ)) : Model :=
  { m with
    precomputedA := computeMatricesA m.fmk alphas
    precomputedB := computeMatricesB m.fmk alphas }

/-- Modelled from the spec: the value that classification reconstructs for class
`c` in dimension `d` at the query value `v` from the tables A and B of the model
and the sorted values of the feature store. -/
def Model.kernelSum (m : Model) (c : ClassId) (d : Nat) (v : ℚ) : ℚ :=
  kernelSumDim (((m.precomputedA.lookup c).getD []).getD d [])
    (((m.precomputedB.lookup c).getD []).getD d []) (m.fmk.sortedDims.getD d []) v

/-! ## Binary label decomposition -/

/-- Modelled from the spec: the class numbers occurring in a label vector (the
part of `prepareBinaryLabels` that fills `_myClasses`), as the ascending
duplicate-free list that iterating over a `std::set<uint>` yields. -/
def classSet (y : List ClassId) : List ClassId :=
  (y.dedup).insertionSort (· ≤ ·)

/-- Modelled from the spec: the one-vs-rest binary label map, "one binary vector
per class": the vector of class `k` has `+1` where the example is labelled `k`
and `-1` elsewhere. -/
def oneVsRest (classes : List ClassId) (y : List ClassId) : List (ClassId × List ℤ) :=
  classes.map fun k => (k, y.map fun yi => if yi = k then 1 else -1)

/-- Modelled from the spec: `prepareBinaryLabels`, whose body is not part of the
sources.  The result holds the object with the members `i_binaryLabelPositive`
and `i_binaryLabelNegative` as the call leaves them, the binary label map
`_binaryLabels` and the class set `_myClasses`.  With exactly two classes
("strictly binary problem") one positive and one negative class number are
tracked, the positive one being the larger class number and the negative one the
smaller (doc comments of the two members), and a single binary vector is built;
otherwise there is one binary vector per class, one-vs-rest. -/
def prepareBinaryLabels (m : Model) (y : List ClassId) :
    Model × List (ClassId × List ℤ) × List ClassId :=
  let myClasses := classSet y
  if myClasses.length = 2 then
    let neg := myClasses.getD 0 0
    let pos := myClasses.getD 1 0
    ({ m with i_binaryLabelPositive := pos, i_binaryLabelNegative := neg },
      [(pos, y.map fun yi => if yi = neg then -1 else 1)], myClasses)
  else
    (m, oneVsRest myClasses y, myClasses)

/-! ## A small example -/

/-- Three one-dimensional training examples. -/
def exampleX : List (List ℚ) :=
  [[1/10], [1/2], [9/10]]

/-- One weight vector per class for the three examples. -/
def exampleAlphas : List (ClassId × List ℚ) :=
  [(1, [1, -1, -1]), (2, [-1, 1, -1]), (3, [-1, -1, 1])]

/-- A model over the feature store of `exampleX`, before any table is built. -/
def exampleModel : Model :=
  { fmk := FastMinKernel.ofExamples exampleX 1
    precomputedA := []
    precomputedB := []
    i_binaryLabelPositive := 0
    i_binaryLabelNegative := 0 }

/-! ## Predictive variance -/

/-- Modelled from the spec: the exact predictive variance (the body of
`computePredictiveVarianceExact` is not part of the sources): "solves
`(K+σI) z = k*` ... and returns `k** − k*ᵗz`".  The doc comment of
`computePredictiveVarianceApproximateRough` writes the same quantity as
`k_{**} - k_*^T (K+\sigma I)^{-1} k_*`. -/
def predictiveVarianceExact {K : Type} [Field K] {n : Nat} (kss : K) (kstar z : Fin n → K) : K :=
  kss - kstar ⬝ᵥ z

/-- Modelled from the spec: the rough bound (the body of
`computePredictiveVarianceApproximateRough` is not part of the sources), as its
doc comment writes it: `k_{**} - |k_*|^2 * 1 / \lambda_max(K + \sigma I)`, for a
given value of `|k_*|^2`. -/
def predictiveVarianceRough {K : Type} [Field K] (kss normSq lambdaMax : K) : K :=
  kss - normSq * (1 / lambdaMax)

/-- The squared Euclidean norm `|k|^2`. -/
def squaredNorm {K : Type} [Field K] {n : Nat} (k : Fin n → K) : K :=
  k ⬝ᵥ k

/-- Modelled from the spec: the vector `k_*` of histogram intersection kernel
values between a query `x` and the training examples `X` (glossary:
`k(x,x') = Σ_d min(x_d, x'_d)`). -/
def hikKernelVector {K : Type} [LinearOrderedField K] {n D : Nat}
    (X : Fin n → Fin D → K) (x : Fin D → K) : Fin n → K :=
  fun i => ∑ d, min (x d) (X i d)

/-- Modelled from the spec: the value of `|k_*|^2` "by neglecting the mixed
terms" (doc comment), "ignoring cross terms between query dimensions" (spec):
only the squares of the per-dimension contributions are summed. -/
def squaredNormNoMixed {K : Type} [LinearOrderedField K] {n D : Nat}
    (X : Fin n → Fin D → K) (x : Fin D → K) : K :=
  ∑ i, ∑ d, min (x d) (X i d) ^ 2

/-- The scalar `lam` is the largest eigenvalue of `M`: it is an eigenvalue, and
no eigenvalue of `M` exceeds it. -/
def IsLargestEigenvalue {K : Type} [LinearOrderedField K] {n : Nat}
    (M : Matrix (Fin n) (Fin n) K) (lam : K) : Prop :=
  (∃ v : Fin n → K, v ≠ 0 ∧ M *ᵥ v = lam • v) ∧
    ∀ (mu : K) (v : Fin n → K), v ≠ 0 → M *ᵥ v = mu • v → mu ≤ lam

/-- Two training examples with one feature: the values 1 and 0. -/
def exampleTraining (K : Type) [Field K] : Fin 2 → Fin 1 → K :=
  ![![1], ![0]]

/-- The regularised kernel matrix `K + sigma I` of `exampleTraining` for
`sigma = 1`: the kernel matrix is `diag(1, 0)`. -/
def exampleKernelMatrix (K : Type) [Field K] : Matrix (Fin 2) (Fin 2) K :=
  Matrix.diagonal ![2, 1]

/-- A query with feature value 1/2. -/
def exampleVarianceQuery (K : Type) [Field K] : Fin 1 → K :=
  ![1 / 2]

/-- The kernel vector of `exampleVarianceQuery` against `exampleTraining`. -/
def exampleKStar (K : Type) [Field K] : Fin 2 → K :=
  ![1 / 2, 0]

/-! ## Conversion to MATLAB arrays (`matlab/ConverterNICEToMatlab.cpp`) -/

/-- The sparse vector of the NICE library as the converter reads it.  The class
is declared outside the sources; the converter uses `getDim()`, `size()` and the
iteration from `begin()` to `end()` over pairs `(first, second)`.  `entries` is
that iteration sequence, index first, value second. -/
structure SparseVector where
  entries : List (Nat × ℚ)
  dim : Nat

/-- The member `size()`: the number of stored entries. -/
def SparseVector.size (niceSvec : SparseVector) : Nat :=
  niceSvec.entries.length

/-- What the converter relies on about its input: the indices are values of the
unsigned index type of the vector (`keyBits` wide), and the iteration visits the
entries in strictly ascending index order, as an ordered map does. -/
def SparseVector.WellFormed (keyBits : Nat) (niceSvec : SparseVector) : Prop :=
  (∀ e ∈ niceSvec.entries, e.1 < 2 ^ keyBits) ∧
    (niceSvec.entries.map Prod.fst).Pairwise (· < ·)

/-- A buffer cell is `none` until the converter writes it. -/
abbrev Cells (α : Type) := List (Option α)

/-- The assignment `buf[pos] = x`.  Writing outside the allocated cells has no
defined result: `none`. -/
def writeCell {α : Type} (buf : Cells α) (pos : Nat) (x : α) : Option (Cells α) :=
  if pos < buf.length then some (buf.set pos (some x)) else none

/-- A sparse `mxArray`: `m` rows, `n` columns, and the arrays `pr`, `ir`, `jc`. -/
structure MxSparse where
  m : Nat
  n : Nat
  nzmax : Nat
  pr : Cells ℚ
  ir : Cells Nat
  jc : Cells Nat
deriving DecidableEq

/-- The call `mxCreateSparse(m, n, nzmax, mxREAL)`, as the comment in the source
describes what it allocates: "A pr array of length nzmax", "An ir array of
length nzmax", "A jc array of length n+1". -/
def mxCreateSparse (m n nzmax : Nat) : MxSparse :=
  { m := m
    n := n
    nzmax := nzmax
    pr := List.replicate nzmax none
    ir := List.replicate nzmax none
    jc := List.replicate (n + 1) none }

/-- The value stored into `ir[cnt]` for the stored index `k`: `myIt->first-1`
when `b_adaptIndexCtoM` is set, else `myIt->first`.  The subtraction is done in
the unsigned index type of the vector (`keyBits` wide, so `0 - 1` wraps to
`2^keyBits - 1`), and the result is converted to the unsigned `mwIndex`
(`indexBits` wide).  Both types are declared outside the sources; their widths
are parameters.  For a signed index type the conversion of `-1` to `mwIndex`
gives `2^indexBits - 1`, which is the case `keyBits = indexBits`. -/
def rowIndex (keyBits indexBits : Nat) (b_adaptIndexCtoM : Bool) (k : Nat) : Nat :=
  (if b_adaptIndexCtoM then (k + 2 ^ keyBits - 1) % 2 ^ keyBits else k) % 2 ^ indexBits

/-- The MATLAB dimension addressed by a zero-based row index of `ir`: MATLAB
counts rows from one. -/
def matlabDimension (row : Nat) : Nat :=
  row + 1

/-- The loop of `convertSparseVectorFromNice` over the remaining entries, `cnt`
being the position written next: `ir[cnt]` gets the row index, `prPtr[cnt]` the
value, then `cnt++`. -/
def fillEntries (keyBits indexBits : Nat) (b_adaptIndexCtoM : Bool) :
    List (Nat × ℚ) → Nat → MxSparse → Option MxSparse
  | [], _, a => some a
  | e :: rest, cnt, a =>
    match writeCell a.ir cnt (rowIndex keyBits indexBits b_adaptIndexCtoM e.1) with
    | none => none
    | some ir =>
      match writeCell a.pr cnt e.2 with
      | none => none
      | some pr =>
        fillEntries keyBits indexBits b_adaptIndexCtoM rest (cnt + 1)
          { a with ir := ir, pr := pr }

/-- The function `ConverterNICEToMatlab::convertSparseVectorFromNice`: create an
`m`-by-1 sparse array with `nzmax = size()`, set `jc[1] = size()` and
`jc[0] = 0`, then run the loop from `cnt = 0`.  The result is `none` if some
assignment falls outside its array. -/
def convertSparseVectorFromNice (keyBits indexBits : Nat) (niceSvec : SparseVector)
    (b_adaptIndexCtoM : Bool) : Option MxSparse :=
  match writeCell (mxCreateSparse niceSvec.dim 1 niceSvec.size).jc 1 niceSvec.size with
  | none => none
  | some jc1 =>
    match writeCell jc1 0 0 with
    | none => none
    | some jc0 =>
      fillEntries keyBits indexBits b_adaptIndexCtoM niceSvec.entries 0
        { mxCreateSparse niceSvec.dim 1 niceSvec.size with jc := jc0 }

/-- The dense matrix of the NICE library as the converter reads it: `rows()`,
`cols()` and the element access `niceMatrix(i,j)`. -/
structure NiceMatrix where
  rows : Nat
  cols : Nat
  entry : Nat → Nat → ℚ

/-- A full (dense) real `mxArray`: `m` rows, `n` columns and the buffer `pr`. -/
structure MxDouble where
  m : Nat
  n : Nat
  pr : Cells ℚ

/-- The call `mxCreateDoubleMatrix(m, n, mxREAL)`: a buffer of `m * n` cells. -/
def mxCreateDoubleMatrix (m n : Nat) : MxDouble :=
  { m := m, n := n, pr := List.replicate (m * n) none }

/-- The largest value of the type `int`, which is 32 bits wide. -/
def intMax : Nat :=
  2 ^ 31 - 1

/-- The increment `i++` of an `int` loop counter: `i + 1` as long as `i` is below
the largest `int`.  At the largest `int` the increment overflows and the program
has no defined result: `none`. -/
def intIncrement (i : Nat) : Option Nat :=
  if i < intMax then some (i + 1) else none

/-- The index expression `i + j*niceMatrix.rows()` of the matrix converter.  The
type of `rows()` is declared outside the sources; the expression is taken in the
natural numbers, which is its machine value in every index type that can count
the cells of the buffer (`matrixIndex_machine`).  The counters `i` and `j` are
values of `int`, see `intIncrement`. -/
def matrixIndex (rows i j : Nat) : Nat :=
  i + j * rows

/-- The inner loop `for( int j = 0; j < niceMatrix.cols(); j++ )` of
`convertMatrixFromNice` for row `i`, at the counter `j` with `n` iterations still
to run (`n = cols() - j`): the assignment
`matlabMatrixPtr[i + j*rows] = niceMatrix(i,j)`, then `j++` on the `int`
counter.  The result is `none` if the assignment falls outside the buffer or the
increment overflows. -/
def fillColumns (niceMatrix : NiceMatrix) (i : Nat) : Nat → Nat → Cells ℚ → Option (Cells ℚ)
  | 0, _, buf => some buf
  | n + 1, j, buf =>
    match writeCell buf (matrixIndex niceMatrix.rows i j) (niceMatrix.entry i j) with
    | none => none
    | some buf1 =>
      match intIncrement j with
      | none => none
      | some j1 => fillColumns niceMatrix i n j1 buf1

/-- The outer loop `for( int i = 0; i < niceMatrix.rows(); i++ )` of
`convertMatrixFromNice`, at the counter `i` with `n` iterations still to run
(`n = rows() - i`): the inner loop with `j` from `0` over the `cols()` columns,
then `i++` on the `int` counter.  The result is `none` if the inner loop has
none or the increment overflows. -/
def fillRows (niceMatrix : NiceMatrix) : Nat → Nat → Cells ℚ → Option (Cells ℚ)
  | 0, _, buf => some buf
  | n + 1, i, buf =>
    match fillColumns niceMatrix i niceMatrix.cols 0 buf with
    | none => none
    | some buf1 =>
      match intIncrement i with
      | none => none
      | some i1 => fillRows niceMatrix n i1 buf1

/-- The function `ConverterNICEToMatlab::convertMatrixFromNice`: create a
`rows()`-by-`cols()` array and run the outer loop with `i` from `0` over the
`rows()` rows.  The result is `none` if some assignment falls outside the buffer
or an `int` counter overflows. -/
def convertMatrixFromNice (niceMatrix : NiceMatrix) : Option MxDouble :=
  match fillRows niceMatrix niceMatrix.rows 0
      (mxCreateDoubleMatrix niceMatrix.rows niceMatrix.cols).pr with
  | none => none
  | some pr => some { mxCreateDoubleMatrix niceMatrix.rows niceMatrix.cols with pr := pr }

/-- Reading a dense `mxArray` as MATLAB does, column by column: element `(i, j)`
is the cell at `i + j * m`. -/
def readColumnMajor (a : MxDouble) (i j : Nat) : Option ℚ :=
  (a.pr.getD (i + j * a.m) none)

/-- The buffer of the matrix converter at the moment when the rows before `i0`
are complete and row `i0` is written up to (excluding) column `j0`: cell `p`
belongs to row `p % rows` and column `p / rows`. -/
def bufferAfter (niceMatrix : NiceMatrix) (i0 j0 : Nat) : Cells ℚ :=
  (List.range (niceMatrix.rows * niceMatrix.cols)).map fun p =>
    if p % niceMatrix.rows < i0 ∨ (p % niceMatrix.rows = i0 ∧ p / niceMatrix.rows < j0) then
      some (niceMatrix.entry (p % niceMatrix.rows) (p / niceMatrix.rows))
    else none

/-- A sparse vector with the stored indices 0 and 1. -/
def exampleSvecFromZero : SparseVector :=
  { entries := [(0, 3), (1, 5)], dim := 2 }

/-- A sparse vector with the stored indices 1 and 3, counted from one. -/
def exampleSvecFromOne : SparseVector :=
  { entries := [(1, 3), (3, 5)], dim := 3 }

/-- A 2-by-3 matrix with entry `10 * i + j` at `(i, j)`. -/
def exampleMatrix : NiceMatrix :=
  { rows := 2, cols := 3, entry := fun i j => 10 * i + j }

/-- A matrix with `2^31 + 1` rows and one column: its last row has the number
`2^31`, one more than the largest `int`. -/
def exampleTallMatrix : NiceMatrix :=
  { rows := 2 ^ 31 + 1, cols := 1, entry := fun i j => 10 * i + j }

/-- A matrix with one row and `2^31 + 1` columns: its last column has the number
`2^31`, one more than the largest `int`. -/
def exampleWideMatrix : NiceMatrix :=
  { rows := 1, cols := 2 ^ 31 + 1, entry := fun i j => 10 * i + j }

/-! # Theorems -/

/-! ## Tables A and B reconstruct the weighted minimum sum -/

/-- The table of leading sums has one entry more than the summed list. -/
theorem leadingSums_length (l : List ℚ) : (leadingSums l).length = l.length + 1 := by
  induction l with
  | nil => rfl
  | cons a as ih => simp [leadingSums, ih]

/-- The first entry of the trailing sums is the sum of the whole list. -/
theorem trailingSums_headD (l : List ℚ) : (trailingSums l).headD 0 = l.sum := by
  induction l with
  | nil => simp [trailingSums]
  | cons a as ih =>
    show a + (trailingSums as).headD 0 = (a :: as).sum
    rw [ih, List.sum_cons]

/-- The sorted rank of a query value never exceeds the number of training values. -/
theorem sortedRank_le (col : List (ℚ × Nat)) (v : ℚ) : sortedRank col v ≤ col.length := by
  unfold sortedRank
  exact (List.takeWhile_sublist _).length_le

/-- If every training value exceeds the query value, every minimum is the query value. -/
theorem sum_min_of_lt (alpha : List ℚ) (v : ℚ) (col : List (ℚ × Nat))
    (h : ∀ e ∈ col, v < e.1) :
    (col.map fun e => alpha.getD e.2 0 * min v e.1).sum
      = v * (col.map fun e => alpha.getD e.2 0).sum := by
  induction col with
  | nil => simp
  | cons e es ih =>
    have he : v < e.1 := h e (List.mem_cons_self _ _)
    have hes : ∀ e' ∈ es, v < e'.1 := fun e' he' => h e' (List.mem_cons_of_mem _ he')
    simp only [List.map_cons, List.sum_cons, ih hes, min_eq_left he.le]
    ring

/-- In one dimension with values in ascending order, the value reconstructed from
tables A and B is the weighted sum of the minima of the query value and the
training values. -/
theorem kernelSumDim_sorted (alpha : List ℚ) (v : ℚ) (col : List (ℚ × Nat))
    (hs : col.Sorted (fun a b => a.1 ≤ b.1)) :
    kernelSumDim (tableA col alpha) (tableB col alpha) col v
      = (col.map fun e => alpha.getD e.2 0 * min v e.1).sum := by
  induction col with
  | nil => simp [kernelSumDim, tableA, tableB, sortedRank, leadingSums, trailingSums]
  | cons e es ih =>
    have hs' := List.sorted_cons.mp hs
    by_cases hev : e.1 ≤ v
    · have hr : sortedRank (e :: es) v = sortedRank es v + 1 := by
        simp [sortedRank, List.takeWhile_cons, hev]
      have hlt : sortedRank es v < (leadingSums (es.map fun e => alpha.getD e.2 0 * e.1)).length := by
        rw [leadingSums_length, List.length_map]
        exact Nat.lt_succ_of_le (sortedRank_le es v)
      have ih' := ih hs'.2
      unfold kernelSumDim tableA tableB at ih' ⊢
      rw [hr]
      simp only [List.map_cons, leadingSums, trailingSums, List.getD_cons_succ, List.sum_cons,
        min_eq_right hev]
      rw [List.getD_eq_getElem?_getD, List.getElem?_map, List.getElem?_eq_getElem hlt]
      rw [List.getD_eq_getElem?_getD, List.getElem?_eq_getElem hlt] at ih'
      simp only [Option.map_some', Option.getD_some] at ih' ⊢
      linarith
    · have hve : v < e.1 := lt_of_not_le hev
      have hall : ∀ e' ∈ e :: es, v < e'.1 := by
        intro e' he'
        rcases List.mem_cons.mp he' with rfl | h
        · exact hve
        · exact lt_of_lt_of_le hve (hs'.1 e' h)
      have hr : sortedRank (e :: es) v = 0 := by
        simp [sortedRank, List.takeWhile_cons, hev]
      rw [sum_min_of_lt alpha v (e :: es) hall]
      unfold kernelSumDim tableA tableB
      rw [hr]
      show (0 : ℚ) + v * (_ + (trailingSums _).headD 0) = _
      rw [trailingSums_headD, List.map_cons, List.sum_cons, zero_add]

/-- Looking a class up after transforming every value of a map transforms the value found. -/
theorem lookup_map_snd {β γ : Type} (f : β → γ) (l : List (ClassId × β)) (c : ClassId) :
    (l.map fun ca => (ca.1, f ca.2)).lookup c = (l.lookup c).map f := by
  induction l with
  | nil => rfl
  | cons a as ih =>
    obtain ⟨k, b⟩ := a
    simp only [List.map_cons, List.lookup_cons]
    cases h : c == k with
    | true => simp
    | false => simpa using ih

/-- Dimension `d` of the feature store built from examples is the sorted column `d`. -/
theorem sortedDims_ofExamples (X : List (List ℚ)) (numDims d : Nat) (hd : d < numDims) :
    (FastMinKernel.ofExamples X numDims).sortedDims.getD d []
      = (featureColumn X d).insertionSort (fun a b => a.1 ≤ b.1) := by
  simp [FastMinKernel.ofExamples, List.getD_eq_getElem?_getD, List.getElem?_map, hd]

/-- The feature store built for `numDims` dimensions has that many dimensions. -/
theorem sortedDims_ofExamples_length (X : List (List ℚ)) (numDims : Nat) :
    (FastMinKernel.ofExamples X numDims).sortedDims.length = numDims := by
  simp [FastMinKernel.ofExamples]

/-- Table A of a class in dimension `d` is the table A of the sorted values of `d`. -/
theorem computeA_getD (fmk : FastMinKernel) (alpha : List ℚ) (d : Nat)
    (hd : d < fmk.sortedDims.length) :
    (computeA fmk alpha).getD d [] = tableA (fmk.sortedDims.getD d []) alpha := by
  simp [computeA, List.getD_eq_getElem?_getD, List.getElem?_map, hd]

/-- Table B of a class in dimension `d` is the table B of the sorted values of `d`. -/
theorem computeB_getD (fmk : FastMinKernel) (alpha : List ℚ) (d : Nat)
    (hd : d < fmk.sortedDims.length) :
    (computeB fmk alpha).getD d [] = tableB (fmk.sortedDims.getD d []) alpha := by
  simp [computeB, List.getD_eq_getElem?_getD, List.getElem?_map, hd]

/-- Summing over the sorted column is summing over the examples in their given order. -/
theorem sum_featureColumn (X : List (List ℚ)) (d : Nat) (alpha : List ℚ) (v : ℚ) :
    (((featureColumn X d).insertionSort (fun a b => a.1 ≤ b.1)).map
        fun e => alpha.getD e.2 0 * min v e.1).sum
      = ((List.range X.length).map fun i => alpha.getD i 0 * min v (featureValue X i d)).sum := by
  have hperm := List.perm_insertionSort (fun a b : ℚ × Nat => a.1 ≤ b.1) (featureColumn X d)
  rw [(hperm.map _).sum_eq]
  simp [featureColumn, List.map_map, Function.comp_def]

/-- C2: for every class `c` with solved weight vector `alpha`, every feature
dimension `d` and every query value `v`, the value reconstructed from the
precomputed tables A and B of class `c` at dimension `d` equals the sum over all
training examples `i` of `alpha_i * min(v, x_{i,d})`, the tables being built by
`computeMatricesAndLUTs` over the training values sorted in dimension `d`. -/
theorem precomputedAB_reconstruct (m : Model) (X : List (List ℚ)) (numDims : Nat)
    (alphas : List (ClassId × List ℚ)) (c : ClassId) (alpha : List ℚ) (d : Nat) (v : ℚ)
    (hfmk : m.fmk = FastMinKernel.ofExamples X numDims)
    (hc : alphas.lookup c = some alpha) (hd : d < numDims) :
    (computeMatricesAndLUTs m alphas).kernelSum c d v
      = ((List.range X.length).map fun i => alpha.getD i 0 * min v (featureValue X i d)).sum := by
  have hd2 : d < (FastMinKernel.ofExamples X numDims).sortedDims.length := by
    rw [sortedDims_ofExamples_length]; exact hd
  unfold Model.kernelSum computeMatricesAndLUTs computeMatricesA computeMatricesB
  simp only [hfmk]
  rw [lookup_map_snd, lookup_map_snd, hc]
  simp only [Option.map_some', Option.getD_some]
  rw [computeA_getD _ _ _ hd2, computeB_getD _ _ _ hd2, sortedDims_ofExamples X numDims d hd]
  rw [kernelSumDim_sorted]
  · exact sum_featureColumn X d alpha v
  · haveI : IsTotal (ℚ × Nat) (fun a b => a.1 ≤ b.1) := ⟨fun a b => le_total a.1 b.1⟩
    haveI : IsTrans (ℚ × Nat) (fun a b => a.1 ≤ b.1) := ⟨fun a b c hab hbc => le_trans hab hbc⟩
    exact List.sorted_insertionSort _ _

/-- The reconstruction of C2 at the example model: class 2, dimension 0 and the
query value 2/5. -/
theorem precomputedAB_reconstruct_witness :
    exampleModel.fmk = FastMinKernel.ofExamples exampleX 1 ∧
    exampleAlphas.lookup 2 = some [-1, 1, -1] ∧ 0 < 1 ∧
    (computeMatricesAndLUTs exampleModel exampleAlphas).kernelSum 2 0 (2 / 5)
      = ((List.range exampleX.length).map fun i =>
          ([-1, 1, -1] : List ℚ).getD i 0 * min (2 / 5) (featureValue exampleX i 0)).sum :=
  ⟨rfl, rfl, by decide,
    precomputedAB_reconstruct exampleModel exampleX 1 exampleAlphas 2 [-1, 1, -1] 0 (2 / 5)
      rfl rfl (by decide)⟩

/-! ## Binary label decomposition -/

/-- The class set is in ascending order. -/
theorem classSet_sorted (y : List ClassId) : (classSet y).Sorted (· ≤ ·) :=
  List.sorted_insertionSort _ _

/-- The class set has no duplicates. -/
theorem classSet_nodup (y : List ClassId) : (classSet y).Nodup :=
  (List.perm_insertionSort _ _).nodup_iff.mpr (List.nodup_dedup y)

/-- The class set holds exactly the class numbers of the label vector. -/
theorem mem_classSet (y : List ClassId) (c : ClassId) : c ∈ classSet y ↔ c ∈ y := by
  unfold classSet
  rw [(List.perm_insertionSort _ _).mem_iff, List.mem_dedup]

/-- The class set has as many members as the label vector has distinct class numbers. -/
theorem classSet_length (y : List ClassId) : (classSet y).length = y.dedup.length :=
  List.length_insertionSort _ _

/-- The class set is strictly ascending. -/
theorem classSet_strict (y : List ClassId) : (classSet y).Pairwise (· < ·) := by
  have h1 := classSet_sorted y
  have h2 := classSet_nodup y
  unfold List.Sorted at h1
  unfold List.Nodup at h2
  exact (h1.and h2).imp (fun ⟨hle, hne⟩ => lt_of_le_of_ne hle hne)

/-- Reading position `i` of a mapped label vector. -/
theorem getD_map_label (y : List ClassId) (f : ClassId → ℤ) (i : Nat) (hi : i < y.length) :
    (y.map f).getD i 0 = f (y.getD i 0) := by
  simp [List.getD_eq_getElem?_getD, List.getElem?_map, List.getElem?_eq_getElem hi]

/-- C5: for every label vector with exactly two distinct class numbers,
`prepareBinaryLabels` tracks one negative and one positive class number, the
class set being exactly these two; the positive one is the larger class number
and the negative one the smaller; the single binary label vector has one entry
per example, `+1` at the examples of the larger class and `-1` at the examples of
the smaller class. -/
theorem prepareBinaryLabels_binary (m : Model) (y : List ClassId) (h2 : y.dedup.length = 2) :
    ∃ neg pos yb,
      (prepareBinaryLabels m y).1.i_binaryLabelNegative = neg ∧
      (prepareBinaryLabels m y).1.i_binaryLabelPositive = pos ∧
      (prepareBinaryLabels m y).2.2 = [neg, pos] ∧
      (prepareBinaryLabels m y).2.1 = [(pos, yb)] ∧
      neg < pos ∧ neg ∈ y ∧ pos ∈ y ∧ (∀ c ∈ y, c = neg ∨ c = pos) ∧
      yb.length = y.length ∧
      ∀ i, i < y.length →
        (y.getD i 0 = pos → yb.getD i 0 = 1) ∧ (y.getD i 0 = neg → yb.getD i 0 = -1) := by
  have hlen : (classSet y).length = 2 := by rw [classSet_length, h2]
  obtain ⟨a, b, hab⟩ := List.length_eq_two.mp hlen
  have hstrict := classSet_strict y
  rw [hab] at hstrict
  have hlt : a < b := by
    simp only [List.pairwise_cons] at hstrict
    exact hstrict.1 b (List.mem_cons_self _ _)
  have hmem : ∀ c, c ∈ y ↔ c = a ∨ c = b := by
    intro c
    rw [← mem_classSet, hab]
    simp
  refine ⟨a, b, y.map (fun yi => if yi = a then -1 else 1), ?_, ?_, ?_, ?_, hlt,
    (hmem a).mpr (Or.inl rfl), (hmem b).mpr (Or.inr rfl), fun c hc => (hmem c).mp hc,
    List.length_map _ _, ?_⟩
  · simp [prepareBinaryLabels, hab]
  · simp [prepareBinaryLabels, hab]
  · simp [prepareBinaryLabels, hab]
  · simp [prepareBinaryLabels, hab]
  · intro i hi
    rw [getD_map_label y _ i hi]
    constructor
    · intro hp
      rw [hp, if_neg (ne_of_gt hlt)]
    · intro hn
      rw [hn, if_pos rfl]

/-- C6: for every label vector `y` of length `n` with more than two distinct class
numbers, the binary label map has exactly one entry per distinct class number of
`y`; every entry is a vector of length `n` with values in `{+1, -1, 0}`; the
vector of class `c` holds `+1` at position `i` exactly when `y_i = c` and `-1` at
every other position. -/
theorem prepareBinaryLabels_multiclass (m : Model) (y : List ClassId)
    (h3 : 2 < y.dedup.length) :
    (((prepareBinaryLabels m y).2.1).map Prod.fst).Nodup ∧
    (∀ c, c ∈ ((prepareBinaryLabels m y).2.1).map Prod.fst ↔ c ∈ y) ∧
    ∀ c v, (c, v) ∈ (prepareBinaryLabels m y).2.1 →
      v.length = y.length ∧
      ∀ i, i < y.length →
        (v.getD i 0 = 1 ∨ v.getD i 0 = -1 ∨ v.getD i 0 = 0) ∧
        (v.getD i 0 = 1 ↔ y.getD i 0 = c) ∧
        (y.getD i 0 ≠ c → v.getD i 0 = -1) := by
  have hlen : ¬ (classSet y).length = 2 := by rw [classSet_length]; omega
  have hbl : (prepareBinaryLabels m y).2.1 = oneVsRest (classSet y) y := by
    simp [prepareBinaryLabels, hlen]
  have hkeys : (oneVsRest (classSet y) y).map Prod.fst = classSet y := by
    simp [oneVsRest, List.map_map, Function.comp_def]
  rw [hbl, hkeys]
  refine ⟨classSet_nodup y, mem_classSet y, ?_⟩
  intro c v hcv
  have hv : v = y.map (fun yi => if yi = c then 1 else -1) := by
    unfold oneVsRest at hcv
    obtain ⟨k, _, hk⟩ := List.mem_map.mp hcv
    simp only [Prod.mk.injEq] at hk
    obtain ⟨rfl, rfl⟩ := hk
    rfl
  subst hv
  refine ⟨List.length_map _ _, ?_⟩
  intro i hi
  rw [getD_map_label y _ i hi]
  by_cases hc : y.getD i 0 = c
  · rw [if_pos hc]
    exact ⟨Or.inl rfl, ⟨fun _ => hc, fun _ => rfl⟩, fun h => absurd hc h⟩
  · rw [if_neg hc]
    exact ⟨Or.inr (Or.inl rfl), ⟨fun h => absurd h (by decide), fun h => absurd h hc⟩,
      fun _ => rfl⟩

/-- The binary case of C5 at the label vector `[1, 1, 2]`. -/
theorem prepareBinaryLabels_binary_witness :
    ([1, 1, 2] : List ClassId).dedup.length = 2 ∧
    ∃ neg pos yb,
      (prepareBinaryLabels exampleModel [1, 1, 2]).1.i_binaryLabelNegative = neg ∧
      (prepareBinaryLabels exampleModel [1, 1, 2]).1.i_binaryLabelPositive = pos ∧
      (prepareBinaryLabels exampleModel [1, 1, 2]).2.2 = [neg, pos] ∧
      (prepareBinaryLabels exampleModel [1, 1, 2]).2.1 = [(pos, yb)] ∧
      neg < pos ∧ neg ∈ ([1, 1, 2] : List ClassId) ∧ pos ∈ ([1, 1, 2] : List ClassId) ∧
      (∀ c ∈ ([1, 1, 2] : List ClassId), c = neg ∨ c = pos) ∧
      yb.length = ([1, 1, 2] : List ClassId).length ∧
      ∀ i, i < ([1, 1, 2] : List ClassId).length →
        (([1, 1, 2] : List ClassId).getD i 0 = pos → yb.getD i 0 = 1) ∧
        (([1, 1, 2] : List ClassId).getD i 0 = neg → yb.getD i 0 = -1) :=
  ⟨by decide, prepareBinaryLabels_binary exampleModel [1, 1, 2] (by decide)⟩

/-- The multi-class case of C6 at the label vector `[1, 2, 3, 1]`. -/
theorem prepareBinaryLabels_multiclass_witness :
    2 < ([1, 2, 3, 1] : List ClassId).dedup.length ∧
    (((prepareBinaryLabels exampleModel [1, 2, 3, 1]).2.1).map Prod.fst).Nodup ∧
    (∀ c, c ∈ ((prepareBinaryLabels exampleModel [1, 2, 3, 1]).2.1).map Prod.fst
      ↔ c ∈ ([1, 2, 3, 1] : List ClassId)) ∧
    ∀ c v, (c, v) ∈ (prepareBinaryLabels exampleModel [1, 2, 3, 1]).2.1 →
      v.length = ([1, 2, 3, 1] : List ClassId).length ∧
      ∀ i, i < ([1, 2, 3, 1] : List ClassId).length →
        (v.getD i 0 = 1 ∨ v.getD i 0 = -1 ∨ v.getD i 0 = 0) ∧
        (v.getD i 0 = 1 ↔ ([1, 2, 3, 1] : List ClassId).getD i 0 = c) ∧
        (([1, 2, 3, 1] : List ClassId).getD i 0 ≠ c → v.getD i 0 = -1) :=
  ⟨by decide, prepareBinaryLabels_multiclass exampleModel [1, 2, 3, 1] (by decide)⟩

/-! ## The rough predictive variance is an upper bound of the exact one -/

/-- The Cauchy-Schwarz inequality for the quadratic form of a symmetric positive
semidefinite matrix. -/
theorem quadForm_cauchy_schwarz {K : Type} [LinearOrderedField K] {n : Nat}
    (M : Matrix (Fin n) (Fin n) K) (hsymm : Mᵀ = M)
    (hpsd : ∀ v : Fin n → K, 0 ≤ v ⬝ᵥ M *ᵥ v) (u w : Fin n → K) :
    (u ⬝ᵥ M *ᵥ w) * (u ⬝ᵥ M *ᵥ w) ≤ (w ⬝ᵥ M *ᵥ w) * (u ⬝ᵥ M *ᵥ u) := by
  have hswap : w ⬝ᵥ M *ᵥ u = u ⬝ᵥ M *ᵥ w := by
    rw [dotProduct_mulVec, ← mulVec_transpose, hsymm, dotProduct_comm]
  have hquad : ∀ t : K, 0 ≤ (w ⬝ᵥ M *ᵥ w) * (t * t) + (2 * (u ⬝ᵥ M *ᵥ w)) * t + u ⬝ᵥ M *ᵥ u := by
    intro t
    have h := hpsd (u + t • w)
    rw [mulVec_add, mulVec_smul, add_dotProduct, dotProduct_add, dotProduct_add,
      smul_dotProduct, smul_dotProduct, dotProduct_smul, dotProduct_smul, hswap] at h
    simp only [smul_eq_mul] at h
    linarith
  have hd := discrim_le_zero hquad
  unfold discrim at hd
  nlinarith

/-- If the quadratic form of a symmetric positive semidefinite `M` is bounded by
`lam` times the squared norm and `M z = k`, then `|k|^2 ≤ lam * (k^T z)`. -/
theorem sq_norm_le_of_rayleigh {K : Type} [LinearOrderedField K] {n : Nat}
    (M : Matrix (Fin n) (Fin n) K) (hsymm : Mᵀ = M)
    (hpsd : ∀ v : Fin n → K, 0 ≤ v ⬝ᵥ M *ᵥ v) (lam : K) (hlam : 0 ≤ lam)
    (hray : ∀ v : Fin n → K, v ⬝ᵥ M *ᵥ v ≤ lam * (v ⬝ᵥ v))
    (k z : Fin n → K) (hz : M *ᵥ z = k) :
    k ⬝ᵥ k ≤ lam * (k ⬝ᵥ z) := by
  have hzk : z ⬝ᵥ M *ᵥ k = k ⬝ᵥ k := by
    rw [dotProduct_mulVec, ← mulVec_transpose, hsymm, hz]
  have hzz : z ⬝ᵥ M *ᵥ z = k ⬝ᵥ z := by
    rw [hz, dotProduct_comm]
  have hcs := quadForm_cauchy_schwarz M hsymm hpsd z k
  rw [hzk, hzz] at hcs
  have hkz : 0 ≤ k ⬝ᵥ z := hzz ▸ hpsd z
  have hkk : 0 ≤ k ⬝ᵥ k := Finset.sum_nonneg fun i _ => mul_self_nonneg (k i)
  have hstep : (k ⬝ᵥ k) * (k ⬝ᵥ k) ≤ (k ⬝ᵥ k) * (lam * (k ⬝ᵥ z)) := by
    calc (k ⬝ᵥ k) * (k ⬝ᵥ k) ≤ (k ⬝ᵥ M *ᵥ k) * (k ⬝ᵥ z) := hcs
      _ ≤ (lam * (k ⬝ᵥ k)) * (k ⬝ᵥ z) := mul_le_mul_of_nonneg_right (hray k) hkz
      _ = (k ⬝ᵥ k) * (lam * (k ⬝ᵥ z)) := by ring
  rcases hkk.eq_or_lt with h0 | hpos
  · rw [← h0]
    exact mul_nonneg hlam hkz
  · exact le_of_mul_le_mul_left hstep hpos


/-- The quadratic form of a real symmetric matrix is bounded by its largest
eigenvalue times the squared norm. -/
theorem rayleigh_le_of_isLargestEigenvalue {n : Nat} (M : Matrix (Fin n) (Fin n) ℝ)
    (hM : M.IsHermitian) (lam : ℝ) (hlam : IsLargestEigenvalue M lam) (v : Fin n → ℝ) :
    v ⬝ᵥ M *ᵥ v ≤ lam * (v ⬝ᵥ v) := by
  have hA : (lam • (1 : Matrix (Fin n) (Fin n) ℝ) - M).IsHermitian := by
    unfold Matrix.IsHermitian at hM ⊢
    rw [conjTranspose_sub, conjTranspose_smul, conjTranspose_one, hM, star_trivial]
  have hnonneg : ∀ i, 0 ≤ hA.eigenvalues i := by
    intro i
    have hev := hA.mulVec_eigenvectorBasis i
    set w : Fin n → ℝ := ⇑(hA.eigenvectorBasis i) with hw
    have hw0 : w ≠ 0 := by
      intro h
      have := hA.eigenvectorBasis.orthonormal.ne_zero i
      apply this
      ext j
      exact congrFun h j
    have hMw : M *ᵥ w = (lam - hA.eigenvalues i) • w := by
      have : (lam • (1 : Matrix (Fin n) (Fin n) ℝ) - M) *ᵥ w = lam • w - M *ᵥ w := by
        rw [sub_mulVec, smul_mulVec_assoc, one_mulVec]
      rw [this] at hev
      rw [sub_smul, ← hev]
      abel
    have := hlam.2 _ w hw0 hMw
    linarith
  have hpsd := hA.posSemidef_of_eigenvalues_nonneg hnonneg
  have h := hpsd.2 v
  rw [star_trivial, sub_mulVec, smul_mulVec_assoc, one_mulVec, dotProduct_sub, dotProduct_smul,
    smul_eq_mul] at h
  linarith


/-- The largest eigenvalue of a positive definite matrix is positive. -/
theorem isLargestEigenvalue_pos {n : Nat} (M : Matrix (Fin n) (Fin n) ℝ) (hM : M.PosDef)
    (lam : ℝ) (hlam : IsLargestEigenvalue M lam) : 0 < lam := by
  obtain ⟨v, hv0, hv⟩ := hlam.1
  have h1 := hM.2 v hv0
  rw [star_trivial, hv, dotProduct_smul, smul_eq_mul] at h1
  have h2 : 0 ≤ v ⬝ᵥ v := Finset.sum_nonneg fun i _ => mul_self_nonneg (v i)
  by_contra hneg
  have : lam * (v ⬝ᵥ v) ≤ 0 := mul_nonpos_of_nonpos_of_nonneg (not_lt.mp hneg) h2
  linarith

/-- For nonnegative features, dropping the mixed terms does not increase `|k_*|^2`. -/
theorem squaredNormNoMixed_le {n D : Nat} (X : Fin n → Fin D → ℝ) (x : Fin D → ℝ)
    (hX : ∀ i d, 0 ≤ X i d) (hx : ∀ d, 0 ≤ x d) :
    squaredNormNoMixed X x ≤ squaredNorm (hikKernelVector X x) := by
  unfold squaredNormNoMixed squaredNorm hikKernelVector dotProduct
  refine Finset.sum_le_sum fun i _ => ?_
  rw [← sq]
  exact Finset.sum_sq_le_sq_sum_of_nonneg fun d _ => le_min (hx d) (hX i d)

/-- C7: for every real symmetric positive definite matrix `M` with largest
eigenvalue `lam`, every vector `k_*` and every scalar `k_**`, the exact predictive
variance `k_** - k_*^T M^{-1} k_*` is at most the rough bound
`k_** - |k_*|^2 / lam`; and when `k_*` is the histogram intersection kernel vector
of nonnegative features, the rough value computed from `|k_*|^2` without the mixed
terms between query dimensions is still an upper bound of the exact variance. -/
theorem roughVariance_bounds_exact {n D : Nat} (M : Matrix (Fin n) (Fin n) ℝ) (hM : M.PosDef)
    (lam : ℝ) (hlam : IsLargestEigenvalue M lam) (kstar : Fin n → ℝ) (kss : ℝ) :
    predictiveVarianceExact kss kstar (M⁻¹ *ᵥ kstar)
        ≤ predictiveVarianceRough kss (squaredNorm kstar) lam ∧
    ∀ (X : Fin n → Fin D → ℝ) (x : Fin D → ℝ), (∀ i d, 0 ≤ X i d) → (∀ d, 0 ≤ x d) →
      kstar = hikKernelVector X x →
        predictiveVarianceExact kss kstar (M⁻¹ *ᵥ kstar)
          ≤ predictiveVarianceRough kss (squaredNormNoMixed X x) lam := by
  have hpos := isLargestEigenvalue_pos M hM lam hlam
  have hz : M *ᵥ (M⁻¹ *ᵥ kstar) = kstar := by
    rw [mulVec_mulVec, Matrix.mul_nonsing_inv M ((Matrix.isUnit_iff_isUnit_det M).mp hM.isUnit),
      one_mulVec]
  have hsymm : Mᵀ = M := by
    have := hM.isHermitian
    unfold Matrix.IsHermitian at this
    rwa [conjTranspose_eq_transpose_of_trivial] at this
  have hpsd : ∀ v : Fin n → ℝ, 0 ≤ v ⬝ᵥ M *ᵥ v := by
    intro v
    have := hM.posSemidef.2 v
    rwa [star_trivial] at this
  have hcore := sq_norm_le_of_rayleigh M hsymm hpsd lam hpos.le
    (rayleigh_le_of_isLargestEigenvalue M hM.isHermitian lam hlam) kstar (M⁻¹ *ᵥ kstar) hz
  have hfirst : squaredNorm kstar * (1 / lam) ≤ kstar ⬝ᵥ (M⁻¹ *ᵥ kstar) := by
    unfold squaredNorm
    rw [mul_one_div, div_le_iff₀ hpos]
    linarith
  refine ⟨?_, ?_⟩
  · unfold predictiveVarianceExact predictiveVarianceRough
    linarith
  · intro X x hX hx hk
    have hle := squaredNormNoMixed_le X x hX hx
    rw [← hk] at hle
    have : squaredNormNoMixed X x * (1 / lam) ≤ squaredNorm kstar * (1 / lam) :=
      mul_le_mul_of_nonneg_right hle (by positivity)
    unfold predictiveVarianceExact predictiveVarianceRough
    linarith


/-- The example matrix is positive definite. -/
theorem exampleKernelMatrix_posDef : (exampleKernelMatrix ℝ).PosDef := by
  unfold exampleKernelMatrix
  apply Matrix.PosDef.diagonal
  intro i
  fin_cases i <;> simp

/-- The largest eigenvalue of the example matrix is 2. -/
theorem exampleKernelMatrix_largest : IsLargestEigenvalue (exampleKernelMatrix ℝ) 2 := by
  constructor
  · refine ⟨![1, 0], ?_, ?_⟩
    · intro h
      have := congrFun h 0
      simp at this
    · ext i
      fin_cases i <;> simp [exampleKernelMatrix, mulVec_diagonal]
  · intro mu v hv hmv
    have h0 : 2 * v 0 = mu * v 0 := by
      have := congrFun hmv 0
      simpa [exampleKernelMatrix, mulVec_diagonal] using this
    have h1 : 1 * v 1 = mu * v 1 := by
      have := congrFun hmv 1
      simpa [exampleKernelMatrix, mulVec_diagonal] using this
    by_cases hv0 : v 0 = 0
    · have hv1 : v 1 ≠ 0 := by
        intro hv1
        apply hv
        ext i
        fin_cases i
        · exact hv0
        · exact hv1
      have : (1 : ℝ) = mu := mul_right_cancel₀ hv1 h1
      rw [← this]
      norm_num
    · have : (2 : ℝ) = mu := mul_right_cancel₀ hv0 h0
      rw [← this]

/-- The example kernel vector is the kernel vector of the example query. -/
theorem exampleKStar_eq : exampleKStar ℝ = hikKernelVector (exampleTraining ℝ) (exampleVarianceQuery ℝ) := by
  ext i
  fin_cases i
  · simp [exampleKStar, hikKernelVector, exampleTraining, exampleVarianceQuery]
    norm_num
  · simp [exampleKStar, hikKernelVector, exampleTraining, exampleVarianceQuery]

/-- The example training features are nonnegative. -/
theorem exampleTraining_nonneg : ∀ i d, 0 ≤ exampleTraining ℝ i d := by
  intro i d
  fin_cases i <;> fin_cases d <;> simp [exampleTraining]

/-- The example query features are nonnegative. -/
theorem exampleVarianceQuery_nonneg : ∀ d, 0 ≤ exampleVarianceQuery ℝ d := by
  intro d
  fin_cases d
  simp [exampleVarianceQuery]

/-- The bound of C7 at the example matrix `diag(2, 1)`, its largest eigenvalue 2 and
the example query. -/
theorem roughVariance_bounds_exact_witness :
    (exampleKernelMatrix ℝ).PosDef ∧ IsLargestEigenvalue (exampleKernelMatrix ℝ) 2 ∧
    (∀ i d, 0 ≤ exampleTraining ℝ i d) ∧ (∀ d, 0 ≤ exampleVarianceQuery ℝ d) ∧
    exampleKStar ℝ = hikKernelVector (exampleTraining ℝ) (exampleVarianceQuery ℝ) ∧
    predictiveVarianceExact (1 / 2) (exampleKStar ℝ) ((exampleKernelMatrix ℝ)⁻¹ *ᵥ exampleKStar ℝ)
      ≤ predictiveVarianceRough (1 / 2) (squaredNorm (exampleKStar ℝ)) 2 ∧
    predictiveVarianceExact (1 / 2) (exampleKStar ℝ) ((exampleKernelMatrix ℝ)⁻¹ *ᵥ exampleKStar ℝ)
      ≤ predictiveVarianceRough (1 / 2)
          (squaredNormNoMixed (exampleTraining ℝ) (exampleVarianceQuery ℝ)) 2 :=
  ⟨exampleKernelMatrix_posDef, exampleKernelMatrix_largest, exampleTraining_nonneg,
    exampleVarianceQuery_nonneg, exampleKStar_eq,
    (@roughVariance_bounds_exact 2 1 (exampleKernelMatrix ℝ) exampleKernelMatrix_posDef 2
      exampleKernelMatrix_largest (exampleKStar ℝ) (1 / 2)).1,
    (roughVariance_bounds_exact (exampleKernelMatrix ℝ) exampleKernelMatrix_posDef 2
      exampleKernelMatrix_largest (exampleKStar ℝ) (1 / 2)).2 (exampleTraining ℝ)
      (exampleVarianceQuery ℝ) exampleTraining_nonneg exampleVarianceQuery_nonneg exampleKStar_eq⟩

/-! ## The sparse vector converter fills `ir`, `pr` and `jc` -/

/-- Writing the first unwritten cell: the cell after the written part `done`
receives the value, everything else stays. -/
theorem writeCell_append {α : Type} (done : Cells α) (rest : Cells α) (c : Option α) (x : α) :
    writeCell (done ++ c :: rest) done.length x = some ((done ++ [some x]) ++ rest) := by
  unfold writeCell
  have h : done.length < (done ++ c :: rest).length := by simp
  rw [if_pos h]
  congr 1
  induction done with
  | nil => rfl
  | cons d ds ih =>
    simp only [List.cons_append, List.length_cons, List.set_cons_succ]
    rw [ih (by simp)]

/-- The loop over the entries fills the unwritten tail of `ir` and `pr` cell by
cell, in iteration order, and never leaves the arrays. -/
theorem fillEntries_eq (keyBits indexBits : Nat) (adapt : Bool) (es : List (Nat × ℚ)) :
    ∀ (cnt : Nat) (a : MxSparse) (irDone : Cells Nat) (prDone : Cells ℚ),
      a.ir = irDone ++ List.replicate es.length none →
      a.pr = prDone ++ List.replicate es.length none →
      irDone.length = cnt → prDone.length = cnt →
      fillEntries keyBits indexBits adapt es cnt a =
        some { a with
          ir := irDone ++ es.map (fun e => some (rowIndex keyBits indexBits adapt e.1))
          pr := prDone ++ es.map (fun e => some e.2) } := by
  induction es with
  | nil =>
    intro cnt a irDone prDone hir hpr _ _
    simp only [List.length_nil, List.replicate_zero, List.append_nil] at hir hpr
    simp only [fillEntries, List.map_nil, List.append_nil]
    rw [← hir, ← hpr]
  | cons e rest ih =>
    intro cnt a irDone prDone hir hpr hci hcp
    simp only [List.length_cons, List.replicate_succ] at hir hpr
    unfold fillEntries
    rw [hir, hpr, ← hci, writeCell_append]
    simp only
    have hlen : irDone.length = prDone.length := hci.trans hcp.symm
    rw [hlen, writeCell_append]
    simp only
    rw [← hlen]
    rw [ih (irDone.length + 1) _ (irDone ++ [some (rowIndex keyBits indexBits adapt e.1)])
      (prDone ++ [some e.2]) rfl rfl (by simp) (by simp [hcp, hci])]
    simp


/-- The result of `convertSparseVectorFromNice` in closed form. -/
theorem convertSparseVectorFromNice_eq (keyBits indexBits : Nat) (niceSvec : SparseVector)
    (adapt : Bool) :
    convertSparseVectorFromNice keyBits indexBits niceSvec adapt =
      some
        { m := niceSvec.dim
          n := 1
          nzmax := niceSvec.size
          pr := niceSvec.entries.map (fun e => some e.2)
          ir := niceSvec.entries.map (fun e => some (rowIndex keyBits indexBits adapt e.1))
          jc := [some 0, some niceSvec.size] } := by
  unfold convertSparseVectorFromNice
  have hjc : (mxCreateSparse niceSvec.dim 1 niceSvec.size).jc = [none, none] := rfl
  rw [hjc]
  have h1 : writeCell ([none, none] : Cells Nat) 1 niceSvec.size = some [none, some niceSvec.size] :=
    rfl
  rw [h1]
  simp only
  have h0 : writeCell ([none, some niceSvec.size] : Cells Nat) 0 0
      = some [some 0, some niceSvec.size] := rfl
  rw [h0]
  simp only
  rw [fillEntries_eq keyBits indexBits adapt niceSvec.entries 0 _ [] [] (by
    simp [mxCreateSparse, SparseVector.size]) (by simp [mxCreateSparse, SparseVector.size]) rfl rfl]
  simp [mxCreateSparse]

/-- With `b_adaptIndexCtoM` set, a stored index `k ≥ 1` gives the row index `k - 1`. -/
theorem rowIndex_adapt_pos (keyBits indexBits k : Nat) (hw : keyBits ≤ indexBits)
    (hk : k < 2 ^ keyBits) (hpos : 1 ≤ k) :
    rowIndex keyBits indexBits true k = k - 1 := by
  unfold rowIndex
  have hle : 2 ^ keyBits ≤ 2 ^ indexBits := Nat.pow_le_pow_right (by decide) hw
  have h1 : k + 2 ^ keyBits - 1 = (k - 1) + 2 ^ keyBits := by omega
  have h2 : k - 1 < 2 ^ keyBits := by omega
  have h3 : k - 1 < 2 ^ indexBits := by omega
  simp only [if_true]
  rw [h1, Nat.add_mod_right, Nat.mod_eq_of_lt h2, Nat.mod_eq_of_lt h3]

/-- With `b_adaptIndexCtoM` set, the stored index 0 wraps to the largest value of
the unsigned index type of the vector. -/
theorem rowIndex_adapt_zero (keyBits indexBits : Nat) (hw : keyBits ≤ indexBits) :
    rowIndex keyBits indexBits true 0 = 2 ^ keyBits - 1 := by
  unfold rowIndex
  have hle : 2 ^ keyBits ≤ 2 ^ indexBits := Nat.pow_le_pow_right (by decide) hw
  have hpos : 0 < 2 ^ keyBits := Nat.pow_pos (by decide)
  have h2 : 2 ^ keyBits - 1 < 2 ^ keyBits := by omega
  have h3 : 2 ^ keyBits - 1 < 2 ^ indexBits := by omega
  simp only [if_true, Nat.zero_add]
  rw [Nat.mod_eq_of_lt h2, Nat.mod_eq_of_lt h3]

/-- Without `b_adaptIndexCtoM`, a stored index is written unchanged. -/
theorem rowIndex_noadapt (keyBits indexBits k : Nat) (hw : keyBits ≤ indexBits)
    (hk : k < 2 ^ keyBits) :
    rowIndex keyBits indexBits false k = k := by
  unfold rowIndex
  have hle : 2 ^ keyBits ≤ 2 ^ indexBits := Nat.pow_le_pow_right (by decide) hw
  have h3 : k < 2 ^ indexBits := by omega
  simp only [Bool.false_eq_true, if_false]
  exact Nat.mod_eq_of_lt h3

/-- With `b_adaptIndexCtoM` set, the row index of `k ≥ 1` is at most `k - 1`. -/
theorem rowIndex_le_adapt (keyBits indexBits k : Nat) (hk : k < 2 ^ keyBits) (hpos : 1 ≤ k) :
    rowIndex keyBits indexBits true k ≤ k - 1 := by
  unfold rowIndex
  have h1 : k + 2 ^ keyBits - 1 = (k - 1) + 2 ^ keyBits := by omega
  have h2 : k - 1 < 2 ^ keyBits := by omega
  simp only [if_true]
  rw [h1, Nat.add_mod_right, Nat.mod_eq_of_lt h2]
  exact Nat.mod_le _ _

/-- Without `b_adaptIndexCtoM`, the row index is at most the stored index. -/
theorem rowIndex_le_noadapt (keyBits indexBits k : Nat) :
    rowIndex keyBits indexBits false k ≤ k := by
  unfold rowIndex
  simp only [Bool.false_eq_true, if_false]
  exact Nat.mod_le _ _

/-! ## The matrix converter writes a column-major copy -/

/-- Every position computed for a row and a column of the matrix lies in the buffer. -/
theorem matrixIndex_lt (r c i j : Nat) (hi : i < r) (hj : j < c) : matrixIndex r i j < r * c := by
  unfold matrixIndex
  have h : (j + 1) * r ≤ c * r := Nat.mul_le_mul_right r hj
  calc i + j * r < r + j * r := by omega
    _ = (j + 1) * r := by ring
    _ ≤ c * r := h
    _ = r * c := Nat.mul_comm c r

/-- The row is recovered from the position. -/
theorem matrixIndex_mod (r i j : Nat) (hi : i < r) : matrixIndex r i j % r = i := by
  unfold matrixIndex
  rw [Nat.add_mul_mod_self_right, Nat.mod_eq_of_lt hi]

/-- The column is recovered from the position. -/
theorem matrixIndex_div (r i j : Nat) (hi : i < r) : matrixIndex r i j / r = j := by
  unfold matrixIndex
  rw [Nat.add_mul_div_right _ _ (by omega), Nat.div_eq_of_lt hi, Nat.zero_add]

/-- Every position is the position of its row and column. -/
theorem matrixIndex_mod_div (r p : Nat) : matrixIndex r (p % r) (p / r) = p := by
  unfold matrixIndex
  rw [Nat.mul_comm]
  exact Nat.mod_add_div p r

/-- The buffer keeps its `rows * cols` cells. -/
theorem bufferAfter_length (M : NiceMatrix) (i0 j0 : Nat) :
    (bufferAfter M i0 j0).length = M.rows * M.cols := by
  simp [bufferAfter]

/-- One assignment of the inner loop advances the buffer by one column. -/
theorem writeCell_bufferAfter (M : NiceMatrix) (i0 j0 : Nat) (hi : i0 < M.rows)
    (hj : j0 < M.cols) :
    writeCell (bufferAfter M i0 j0) (matrixIndex M.rows i0 j0) (M.entry i0 j0)
      = some (bufferAfter M i0 (j0 + 1)) := by
  have hpos := matrixIndex_lt M.rows M.cols i0 j0 hi hj
  unfold writeCell
  rw [bufferAfter_length, if_pos hpos]
  congr 1
  apply List.ext_getElem?
  intro p
  rw [List.getElem?_set]
  by_cases hp : matrixIndex M.rows i0 j0 = p
  · subst hp
    rw [if_pos rfl, bufferAfter_length, if_pos hpos]
    simp only [bufferAfter, List.getElem?_map, List.getElem?_range hpos, Option.map_some',
      matrixIndex_mod M.rows i0 j0 hi, matrixIndex_div M.rows i0 j0 hi]
    simp
  · rw [if_neg hp]
    by_cases hlt : p < M.rows * M.cols
    · simp only [bufferAfter, List.getElem?_map, List.getElem?_range hlt, Option.map_some']
      have hiff : (p % M.rows < i0 ∨ (p % M.rows = i0 ∧ p / M.rows < j0)) ↔
          (p % M.rows < i0 ∨ (p % M.rows = i0 ∧ p / M.rows < j0 + 1)) := by
        constructor
        · rintro (h | ⟨h1, h2⟩)
          · exact Or.inl h
          · exact Or.inr ⟨h1, by omega⟩
        · rintro (h | ⟨h1, h2⟩)
          · exact Or.inl h
          · refine Or.inr ⟨h1, ?_⟩
            by_contra hge
            have hj0 : p / M.rows = j0 := by omega
            apply hp
            rw [← h1, ← hj0]
            exact matrixIndex_mod_div M.rows p
      simp only [hiff]
    · have h1 : (bufferAfter M i0 j0)[p]? = none := by
        apply List.getElem?_eq_none
        rw [bufferAfter_length]; omega
      have h2 : (bufferAfter M i0 (j0 + 1))[p]? = none := by
        apply List.getElem?_eq_none
        rw [bufferAfter_length]; omega
      rw [h1, h2]

/-- Below `2^31` the increment of an `int` counter is defined. -/
theorem intIncrement_lt (i : Nat) (h : i + 1 < 2 ^ 31) : intIncrement i = some (i + 1) := by
  unfold intIncrement intMax
  rw [if_pos (by omega)]

/-- At `2^31 - 1` and beyond the increment of an `int` counter is not defined. -/
theorem intIncrement_ge (i : Nat) (h : 2 ^ 31 ≤ i + 1) : intIncrement i = none := by
  unfold intIncrement intMax
  rw [if_neg (by omega)]

/-- The inner loop from column `j0` on writes the next `n` cells of row `i0`. -/
theorem fillColumns_range (M : NiceMatrix) (i0 : Nat) (hi : i0 < M.rows)
    (hcols : M.cols < 2 ^ 31) (n : Nat) :
    ∀ j0, j0 + n ≤ M.cols →
      fillColumns M i0 n j0 (bufferAfter M i0 j0) = some (bufferAfter M i0 (j0 + n)) := by
  induction n with
  | zero => intro j0 _; rfl
  | succ n ih =>
    intro j0 hle
    unfold fillColumns
    rw [writeCell_bufferAfter M i0 j0 hi (by omega)]
    simp only
    rw [intIncrement_lt j0 (by omega)]
    simp only
    rw [ih (j0 + 1) (by omega)]
    congr 2
    omega

/-- A loop that would take its `int` column counter to `2^31` or beyond has no
defined result. -/
theorem fillColumns_overflow (M : NiceMatrix) (i0 : Nat) (n : Nat) :
    ∀ j0 buf, n ≠ 0 → 2 ^ 31 ≤ j0 + n → fillColumns M i0 n j0 buf = none := by
  induction n with
  | zero => intro j0 buf h; exact absurd rfl h
  | succ n ih =>
    intro j0 buf _ hge
    unfold fillColumns
    cases writeCell buf (matrixIndex M.rows i0 j0) (M.entry i0 j0) with
    | none => rfl
    | some buf1 =>
      simp only
      rcases Nat.lt_or_ge (j0 + 1) (2 ^ 31) with hlt | hle
      · rw [intIncrement_lt j0 hlt]
        simp only
        exact ih (j0 + 1) buf1 (by omega) (by omega)
      · rw [intIncrement_ge j0 hle]

/-- A completed row is the start of the next row. -/
theorem bufferAfter_next_row (M : NiceMatrix) (i0 : Nat) :
    bufferAfter M i0 M.cols = bufferAfter M (i0 + 1) 0 := by
  unfold bufferAfter
  apply List.map_congr_left
  intro p hp
  have hlt : p < M.rows * M.cols := List.mem_range.mp hp
  have hr : 0 < M.rows := by
    rcases Nat.eq_zero_or_pos M.rows with h | h
    · rw [h, Nat.zero_mul] at hlt; omega
    · exact h
  have hdiv : p / M.rows < M.cols := Nat.div_lt_of_lt_mul hlt
  have hiff : (p % M.rows < i0 ∨ (p % M.rows = i0 ∧ p / M.rows < M.cols)) ↔
      (p % M.rows < i0 + 1 ∨ (p % M.rows = i0 + 1 ∧ p / M.rows < 0)) := by
    constructor
    · rintro (h | ⟨h1, _⟩)
      · exact Or.inl (by omega)
      · exact Or.inl (by omega)
    · rintro (h | ⟨_, h2⟩)
      · rcases Nat.lt_or_ge (p % M.rows) i0 with h3 | h3
        · exact Or.inl h3
        · exact Or.inr ⟨by omega, hdiv⟩
      · exact absurd h2 (Nat.not_lt_zero _)
  simp only [hiff]

/-- The outer loop from row `i0` on completes the next `n` rows. -/
theorem fillRows_range (M : NiceMatrix) (hrows : M.rows < 2 ^ 31) (hcols : M.cols < 2 ^ 31)
    (n : Nat) :
    ∀ i0, i0 + n ≤ M.rows →
      fillRows M n i0 (bufferAfter M i0 0) = some (bufferAfter M (i0 + n) 0) := by
  induction n with
  | zero => intro i0 _; rfl
  | succ n ih =>
    intro i0 hle
    unfold fillRows
    have hrow := fillColumns_range M i0 (by omega) hcols M.cols 0 (by omega)
    rw [hrow]
    simp only [Nat.zero_add]
    rw [intIncrement_lt i0 (by omega)]
    simp only
    rw [bufferAfter_next_row, ih (i0 + 1) (by omega)]
    congr 2
    omega

/-- A loop that would take its `int` row counter to `2^31` or beyond has no
defined result. -/
theorem fillRows_overflow (M : NiceMatrix) (n : Nat) :
    ∀ i0 buf, n ≠ 0 → 2 ^ 31 ≤ i0 + n → fillRows M n i0 buf = none := by
  induction n with
  | zero => intro i0 buf h; exact absurd rfl h
  | succ n ih =>
    intro i0 buf _ hge
    unfold fillRows
    cases fillColumns M i0 M.cols 0 buf with
    | none => rfl
    | some buf1 =>
      simp only
      rcases Nat.lt_or_ge (i0 + 1) (2 ^ 31) with hlt | hle
      · rw [intIncrement_lt i0 hlt]
        simp only
        exact ih (i0 + 1) buf1 (by omega) (by omega)
      · rw [intIncrement_ge i0 hle]

/-- With `2^31` columns or more, a row of the matrix converter has no defined
result. -/
theorem fillRows_cols_overflow (M : NiceMatrix) (hcols : 2 ^ 31 ≤ M.cols) (n i0 : Nat)
    (buf : Cells ℚ) (hn : n ≠ 0) : fillRows M n i0 buf = none := by
  cases n with
  | zero => exact absurd rfl hn
  | succ n =>
    unfold fillRows
    rw [fillColumns_overflow M i0 M.cols 0 buf (by omega) (by omega)]

/-- The freshly created buffer has no written cell. -/
theorem bufferAfter_zero (M : NiceMatrix) :
    bufferAfter M 0 0 = List.replicate (M.rows * M.cols) none := by
  apply List.ext_getElem?
  intro p
  by_cases hlt : p < M.rows * M.cols
  · simp [bufferAfter, List.getElem?_map, List.getElem?_range hlt, List.getElem?_replicate, hlt]
  · rw [List.getElem?_eq_none (by rw [bufferAfter_length]; omega),
      List.getElem?_eq_none (by simp; omega)]

/-- The result of `convertMatrixFromNice` in closed form, for row and column
counts that the `int` counters reach. -/
theorem convertMatrixFromNice_eq (M : NiceMatrix) (hrows : M.rows < 2 ^ 31)
    (hcols : M.cols < 2 ^ 31) :
    convertMatrixFromNice M
      = some { m := M.rows, n := M.cols, pr := bufferAfter M M.rows 0 } := by
  unfold convertMatrixFromNice
  have h := fillRows_range M hrows hcols M.rows 0 (by omega)
  have hpr : (mxCreateDoubleMatrix M.rows M.cols).pr = bufferAfter M 0 0 := by
    rw [bufferAfter_zero]; rfl
  rw [hpr, h]
  simp [mxCreateDoubleMatrix]

/-- With `2^31` rows or more the matrix converter has no defined result. -/
theorem convertMatrixFromNice_rows_overflow (M : NiceMatrix) (hrows : 2 ^ 31 ≤ M.rows) :
    convertMatrixFromNice M = none := by
  unfold convertMatrixFromNice
  rw [fillRows_overflow M M.rows 0 _ (by omega) (by omega)]

/-- With at least one row and `2^31` columns or more the matrix converter has no
defined result. -/
theorem convertMatrixFromNice_cols_overflow (M : NiceMatrix) (hrows : M.rows ≠ 0)
    (hcols : 2 ^ 31 ≤ M.cols) : convertMatrixFromNice M = none := by
  unfold convertMatrixFromNice
  rw [fillRows_cols_overflow M hcols M.rows 0 _ hrows]

/-- After the last row every cell holds the matrix element of its row and column. -/
theorem bufferAfter_full (M : NiceMatrix) (p : Nat) (hp : p < M.rows * M.cols) :
    (bufferAfter M M.rows 0)[p]? = some (some (M.entry (p % M.rows) (p / M.rows))) := by
  have hr : 0 < M.rows := by
    rcases Nat.eq_zero_or_pos M.rows with h | h
    · rw [h, Nat.zero_mul] at hp; omega
    · exact h
  simp only [bufferAfter, List.getElem?_map, List.getElem?_range hp, Option.map_some']
  rw [if_pos (Or.inl (Nat.mod_lt p hr))]

/-! ## Claims about the converter -/

/-- The row indices written for strictly ascending stored indices are strictly
ascending, unless `b_adaptIndexCtoM` is set and the index 0 is stored. -/
theorem rows_pairwise (keyBits indexBits : Nat) (hw : keyBits ≤ indexBits) (adapt : Bool)
    (es : List (Nat × ℚ)) (hk : ∀ e ∈ es, e.1 < 2 ^ keyBits)
    (hs : (es.map Prod.fst).Pairwise (· < ·))
    (hone : adapt = false ∨ ∀ e ∈ es, 1 ≤ e.1) :
    (es.map fun e => rowIndex keyBits indexBits adapt e.1).Pairwise (· < ·) := by
  rw [List.pairwise_map] at hs ⊢
  refine hs.imp_of_mem ?_
  intro x y hx hy hxy
  cases adapt with
  | false =>
    rw [rowIndex_noadapt _ _ _ hw (hk x hx), rowIndex_noadapt _ _ _ hw (hk y hy)]
    exact hxy
  | true =>
    have h1 : ∀ e ∈ es, 1 ≤ e.1 := by
      rcases hone with h | h
      · cases h
      · exact h
    rw [rowIndex_adapt_pos _ _ _ hw (hk x hx) (h1 x hx),
      rowIndex_adapt_pos _ _ _ hw (hk y hy) (h1 y hy)]
    have := h1 x hx
    omega

/-- C13 (amended): for every sparse vector and every stored entry `(k, v)`, met
at position `cnt` of the iteration: with `b_adaptIndexCtoM = true` and `k ≥ 1`
the value `v` is placed at MATLAB dimension `k` (zero-based row index `k - 1` in
`ir`), and with `b_adaptIndexCtoM = false` at MATLAB dimension `k + 1` (zero-based
row index `k` in `ir`).  The stored index is a value of the index type of the
vector, which is no wider than `mwIndex`. -/
theorem sparse_entry_placement (keyBits indexBits : Nat) (hw : keyBits ≤ indexBits)
    (niceSvec : SparseVector) (cnt k : Nat) (v : ℚ) (hk : k < 2 ^ keyBits)
    (he : niceSvec.entries[cnt]? = some (k, v)) :
    (1 ≤ k → ∃ a, convertSparseVectorFromNice keyBits indexBits niceSvec true = some a ∧
        a.pr[cnt]? = some (some v) ∧ a.ir[cnt]? = some (some (k - 1)) ∧
        matlabDimension (k - 1) = k) ∧
    (∃ a, convertSparseVectorFromNice keyBits indexBits niceSvec false = some a ∧
        a.pr[cnt]? = some (some v) ∧ a.ir[cnt]? = some (some k) ∧
        matlabDimension k = k + 1) := by
  constructor
  · intro hpos
    refine ⟨_, convertSparseVectorFromNice_eq keyBits indexBits niceSvec true, ?_, ?_, ?_⟩
    · simp only [List.getElem?_map, he, Option.map_some']
    · simp only [List.getElem?_map, he, Option.map_some']
      rw [rowIndex_adapt_pos _ _ _ hw hk hpos]
    · unfold matlabDimension; omega
  · refine ⟨_, convertSparseVectorFromNice_eq keyBits indexBits niceSvec false, ?_, ?_, rfl⟩
    · simp only [List.getElem?_map, he, Option.map_some']
    · simp only [List.getElem?_map, he, Option.map_some']
      rw [rowIndex_noadapt _ _ _ hw hk]

/-- The amended C13 at the entry `(1, 3)` of the example vector counted from one. -/
theorem sparse_entry_placement_witness :
    32 ≤ 64 ∧ 1 < 2 ^ 32 ∧ exampleSvecFromOne.entries[0]? = some (1, 3) ∧
    (1 ≤ 1 → ∃ a, convertSparseVectorFromNice 32 64 exampleSvecFromOne true = some a ∧
        a.pr[0]? = some (some 3) ∧ a.ir[0]? = some (some (1 - 1)) ∧
        matlabDimension (1 - 1) = 1) ∧
    (∃ a, convertSparseVectorFromNice 32 64 exampleSvecFromOne false = some a ∧
        a.pr[0]? = some (some 3) ∧ a.ir[0]? = some (some 1) ∧
        matlabDimension 1 = 1 + 1) :=
  ⟨by decide, by decide, rfl,
    sparse_entry_placement 32 64 (by decide) exampleSvecFromOne 0 1 3 (by decide) rfl⟩

/-- C13 as stated fails for the stored index 0 with `b_adaptIndexCtoM = true`: for
the entry `(0, 3)` of the example vector the row index written is
`4294967295 = 2^32 - 1`, not `0 - 1`, and no MATLAB dimension 0 is addressed. -/
theorem sparse_entry_zero_wraps :
    exampleSvecFromZero.entries[0]? = some (0, 3) ∧
    ∃ a, convertSparseVectorFromNice 32 64 exampleSvecFromZero true = some a ∧
      a.pr[0]? = some (some 3) ∧ a.ir[0]? = some (some 4294967295) ∧
      ((4294967295 : Nat) : ℤ) ≠ ((0 : Nat) : ℤ) - 1 ∧ matlabDimension 4294967295 ≠ 0 := by
  refine ⟨rfl, _, convertSparseVectorFromNice_eq 32 64 exampleSvecFromZero true, ?_, ?_, ?_, ?_⟩
  · decide
  · decide
  · decide
  · decide

/-- C16 (amended): for every sparse vector with `n` stored entries in ascending
index order, `convertSparseVectorFromNice` produces a single-column sparse array
with `jc = [0, n]` and `nzmax = n`, writes exactly the `n` cells of `ir` and of
`pr` (no assignment leaves the arrays), and stores the values in `pr` in the
order of ascending vector index; the row indices in `ir` are strictly increasing
when `b_adaptIndexCtoM` is false or every stored index is at least 1. -/
theorem sparse_layout (keyBits indexBits : Nat) (hw : keyBits ≤ indexBits)
    (niceSvec : SparseVector) (adapt : Bool) (hwf : niceSvec.WellFormed keyBits) :
    ∃ (a : MxSparse) (rows : List Nat), convertSparseVectorFromNice keyBits indexBits niceSvec adapt = some a ∧
      a.n = 1 ∧ a.nzmax = niceSvec.size ∧ a.jc = [some 0, some niceSvec.size] ∧
      a.pr.length = a.nzmax ∧ a.ir.length = a.nzmax ∧
      a.pr = niceSvec.entries.map (fun e => some e.2) ∧
      a.ir = rows.map some ∧
      ((adapt = false ∨ ∀ e ∈ niceSvec.entries, 1 ≤ e.1) → rows.Pairwise (· < ·)) := by
  refine ⟨_, niceSvec.entries.map (fun e => rowIndex keyBits indexBits adapt e.1),
    convertSparseVectorFromNice_eq keyBits indexBits niceSvec adapt, rfl, rfl, rfl, ?_, ?_, rfl, ?_,
    ?_⟩
  · simp [SparseVector.size]
  · simp [SparseVector.size]
  · simp [List.map_map, Function.comp_def]
  · intro hone
    exact rows_pairwise keyBits indexBits hw adapt niceSvec.entries hwf.1 hwf.2 hone

/-- The amended C16 at the example vector counted from one. -/
theorem sparse_layout_witness :
    32 ≤ 64 ∧ exampleSvecFromOne.WellFormed 32 ∧
    ∃ (a : MxSparse) (rows : List Nat), convertSparseVectorFromNice 32 64 exampleSvecFromOne true = some a ∧
      a.n = 1 ∧ a.nzmax = exampleSvecFromOne.size ∧
      a.jc = [some 0, some exampleSvecFromOne.size] ∧
      a.pr.length = a.nzmax ∧ a.ir.length = a.nzmax ∧
      a.pr = exampleSvecFromOne.entries.map (fun e => some e.2) ∧
      a.ir = rows.map some ∧
      ((true = false ∨ ∀ e ∈ exampleSvecFromOne.entries, 1 ≤ e.1) → rows.Pairwise (· < ·)) :=
  ⟨by decide, ⟨by decide, by decide⟩,
    sparse_layout 32 64 (by decide) exampleSvecFromOne true ⟨by decide, by decide⟩⟩

/-- C16 as stated fails with `b_adaptIndexCtoM = true` when the index 0 is stored:
for the example vector with the stored indices 0 and 1 the row indices written
are `4294967295, 0`, which is not increasing. -/
theorem sparse_rows_not_increasing :
    exampleSvecFromZero.WellFormed 32 ∧
    ∃ a, convertSparseVectorFromNice 32 64 exampleSvecFromZero true = some a ∧
      a.ir = [some 4294967295, some 0] ∧
      ¬ ([4294967295, 0] : List Nat).Pairwise (· < ·) := by
  refine ⟨⟨by decide, by decide⟩, _,
    convertSparseVectorFromNice_eq 32 64 exampleSvecFromZero true, ?_, ?_⟩
  · decide
  · decide

/-- C17: for every sparse vector of dimension `m`: with `b_adaptIndexCtoM = true`
and all stored indices in `1..m`, and with `b_adaptIndexCtoM = false` and all
stored indices in `0..m-1`, every row index written lies in `0..m-1`; with
`b_adaptIndexCtoM = true` and a stored index 0 the row index written for it is
`2^keyBits - 1`, the wrapped value of `0 - 1` in the unsigned index type, which is
not a row of the `m`-by-1 result. -/
theorem sparse_rows_valid (keyBits indexBits : Nat) (hw : keyBits ≤ indexBits)
    (niceSvec : SparseVector) (hdim : niceSvec.dim < 2 ^ keyBits) :
    ((∀ e ∈ niceSvec.entries, 1 ≤ e.1 ∧ e.1 ≤ niceSvec.dim) →
      ∃ a, convertSparseVectorFromNice keyBits indexBits niceSvec true = some a ∧
        a.m = niceSvec.dim ∧ ∀ r, some r ∈ a.ir → r < a.m) ∧
    ((∀ e ∈ niceSvec.entries, e.1 < niceSvec.dim) →
      ∃ a, convertSparseVectorFromNice keyBits indexBits niceSvec false = some a ∧
        a.m = niceSvec.dim ∧ ∀ r, some r ∈ a.ir → r < a.m) ∧
    (∀ (cnt : Nat) (v : ℚ), niceSvec.entries[cnt]? = some (0, v) →
      ∃ a, convertSparseVectorFromNice keyBits indexBits niceSvec true = some a ∧
        a.ir[cnt]? = some (some (2 ^ keyBits - 1)) ∧ ¬ (2 ^ keyBits - 1 < a.m)) := by
  refine ⟨?_, ?_, ?_⟩
  · intro hall
    refine ⟨_, convertSparseVectorFromNice_eq keyBits indexBits niceSvec true, rfl, ?_⟩
    intro r hr
    obtain ⟨e, he, hre⟩ := List.mem_map.mp hr
    have hr2 : rowIndex keyBits indexBits true e.1 = r := Option.some.inj hre
    have h1 := hall e he
    have h2 := rowIndex_le_adapt keyBits indexBits e.1 (by omega) h1.1
    show r < niceSvec.dim
    omega
  · intro hall
    refine ⟨_, convertSparseVectorFromNice_eq keyBits indexBits niceSvec false, rfl, ?_⟩
    intro r hr
    obtain ⟨e, he, hre⟩ := List.mem_map.mp hr
    have hr2 : rowIndex keyBits indexBits false e.1 = r := Option.some.inj hre
    have h1 := hall e he
    have h2 := rowIndex_le_noadapt keyBits indexBits e.1
    show r < niceSvec.dim
    omega
  · intro cnt v he
    refine ⟨_, convertSparseVectorFromNice_eq keyBits indexBits niceSvec true, ?_, ?_⟩
    · simp only [List.getElem?_map, he, Option.map_some']
      rw [rowIndex_adapt_zero _ _ hw]
    · show ¬ (2 ^ keyBits - 1 < niceSvec.dim)
      omega

/-- The three cases of C17 at the example vector counted from one. -/
theorem sparse_rows_valid_witness :
    32 ≤ 64 ∧ exampleSvecFromOne.dim < 2 ^ 32 ∧
    ((∀ e ∈ exampleSvecFromOne.entries, 1 ≤ e.1 ∧ e.1 ≤ exampleSvecFromOne.dim) →
      ∃ a, convertSparseVectorFromNice 32 64 exampleSvecFromOne true = some a ∧
        a.m = exampleSvecFromOne.dim ∧ ∀ r, some r ∈ a.ir → r < a.m) ∧
    ((∀ e ∈ exampleSvecFromOne.entries, e.1 < exampleSvecFromOne.dim) →
      ∃ a, convertSparseVectorFromNice 32 64 exampleSvecFromOne false = some a ∧
        a.m = exampleSvecFromOne.dim ∧ ∀ r, some r ∈ a.ir → r < a.m) ∧
    (∀ (cnt : Nat) (v : ℚ), exampleSvecFromOne.entries[cnt]? = some (0, v) →
      ∃ a, convertSparseVectorFromNice 32 64 exampleSvecFromOne true = some a ∧
        a.ir[cnt]? = some (some (2 ^ 32 - 1)) ∧ ¬ (2 ^ 32 - 1 < a.m)) :=
  ⟨by decide, by decide, sparse_rows_valid 32 64 (by decide) exampleSvecFromOne (by decide)⟩

/-- C14: for every matrix `M` with `r` rows and `c` columns, `r` and `c` below
`2^31` (the values the `int` loop counters reach), `convertMatrixFromNice`
returns an `r`-by-`c` array whose linear buffer of `r * c` cells holds `M(i,j)`
at position `i + j*r` for every `i < r` and `j < c`, so reading the result back
column by column gives `M`. -/
theorem convertMatrixFromNice_column_major (niceMatrix : NiceMatrix)
    (hrows : niceMatrix.rows < 2 ^ 31) (hcols : niceMatrix.cols < 2 ^ 31) :
    ∃ a, convertMatrixFromNice niceMatrix = some a ∧
      a.m = niceMatrix.rows ∧ a.n = niceMatrix.cols ∧
      a.pr.length = niceMatrix.rows * niceMatrix.cols ∧
      ∀ i j, i < niceMatrix.rows → j < niceMatrix.cols →
        a.pr[matrixIndex niceMatrix.rows i j]? = some (some (niceMatrix.entry i j)) ∧
        readColumnMajor a i j = some (niceMatrix.entry i j) := by
  refine ⟨_, convertMatrixFromNice_eq niceMatrix hrows hcols, rfl, rfl,
    bufferAfter_length niceMatrix _ _, ?_⟩
  intro i j hi hj
  have hlt := matrixIndex_lt niceMatrix.rows niceMatrix.cols i j hi hj
  have hcell := bufferAfter_full niceMatrix (matrixIndex niceMatrix.rows i j) hlt
  rw [matrixIndex_mod _ _ _ hi, matrixIndex_div _ _ _ hi] at hcell
  refine ⟨hcell, ?_⟩
  unfold readColumnMajor
  show (bufferAfter niceMatrix niceMatrix.rows 0).getD (matrixIndex niceMatrix.rows i j) none = _
  rw [List.getD_eq_getElem?_getD, hcell]
  rfl

/-- C14 at the 2-by-3 example matrix. -/
theorem convertMatrixFromNice_column_major_witness :
    exampleMatrix.rows < 2 ^ 31 ∧ exampleMatrix.cols < 2 ^ 31 ∧
    ∃ a, convertMatrixFromNice exampleMatrix = some a ∧
      a.m = exampleMatrix.rows ∧ a.n = exampleMatrix.cols ∧
      a.pr.length = exampleMatrix.rows * exampleMatrix.cols ∧
      ∀ i j, i < exampleMatrix.rows → j < exampleMatrix.cols →
        a.pr[matrixIndex exampleMatrix.rows i j]? = some (some (exampleMatrix.entry i j)) ∧
        readColumnMajor a i j = some (exampleMatrix.entry i j) :=
  ⟨by decide, by decide, convertMatrixFromNice_column_major exampleMatrix (by decide) (by decide)⟩

/-- C14 as stated, for every matrix, fails: for the matrix with `2^31 + 1` rows
and one column, and for the matrix with one row and `2^31 + 1` columns, an `int`
counter overflows before the last row or column is reached, so
`convertMatrixFromNice` returns no array whose buffer holds every `M(i,j)` at
position `i + j*r`. -/
theorem convertMatrixFromNice_int_overflow :
    convertMatrixFromNice exampleTallMatrix = none ∧
    convertMatrixFromNice exampleWideMatrix = none ∧
    (¬ ∃ a, convertMatrixFromNice exampleTallMatrix = some a ∧
      ∀ i j, i < exampleTallMatrix.rows → j < exampleTallMatrix.cols →
        a.pr[matrixIndex exampleTallMatrix.rows i j]?
          = some (some (exampleTallMatrix.entry i j))) ∧
    (¬ ∃ a, convertMatrixFromNice exampleWideMatrix = some a ∧
      ∀ i j, i < exampleWideMatrix.rows → j < exampleWideMatrix.cols →
        a.pr[matrixIndex exampleWideMatrix.rows i j]?
          = some (some (exampleWideMatrix.entry i j))) := by
  have htall : convertMatrixFromNice exampleTallMatrix = none :=
    convertMatrixFromNice_rows_overflow exampleTallMatrix (by decide)
  have hwide : convertMatrixFromNice exampleWideMatrix = none :=
    convertMatrixFromNice_cols_overflow exampleWideMatrix (by decide) (by decide)
  refine ⟨htall, hwide, ?_, ?_⟩
  · rintro ⟨a, ha, _⟩
    rw [htall] at ha
    exact Option.noConfusion ha
  · rintro ⟨a, ha, _⟩
    rw [hwide] at ha
    exact Option.noConfusion ha

/-- C15: for every `r` and `c`, the index map `(i, j) -> i + j*r` used by
`convertMatrixFromNice` is a bijection from `{0..r-1} x {0..c-1}` onto
`{0..r*c-1}`: every position lies inside the allocated buffer of `r * c` cells,
no two distinct `(i, j)` have the same position, and every position belongs to
some `(i, j)`; and for `r` and `c` below `2^31` (the values the `int` loop
counters reach) no assignment of the converter leaves the buffer and no cell of
the returned buffer is left unwritten. -/
theorem matrixIndex_bijection (niceMatrix : NiceMatrix) :
    (∀ i j, i < niceMatrix.rows → j < niceMatrix.cols →
      matrixIndex niceMatrix.rows i j < niceMatrix.rows * niceMatrix.cols) ∧
    (∀ i j i2 j2, i < niceMatrix.rows → j < niceMatrix.cols →
      i2 < niceMatrix.rows → j2 < niceMatrix.cols →
      matrixIndex niceMatrix.rows i j = matrixIndex niceMatrix.rows i2 j2 → i = i2 ∧ j = j2) ∧
    (∀ p, p < niceMatrix.rows * niceMatrix.cols →
      ∃ i j, i < niceMatrix.rows ∧ j < niceMatrix.cols ∧ matrixIndex niceMatrix.rows i j = p) ∧
    (niceMatrix.rows < 2 ^ 31 → niceMatrix.cols < 2 ^ 31 →
      ∃ a, convertMatrixFromNice niceMatrix = some a ∧
        a.pr.length = niceMatrix.rows * niceMatrix.cols ∧
        ∀ p, p < niceMatrix.rows * niceMatrix.cols → ∃ v, a.pr[p]? = some (some v)) := by
  refine ⟨fun i j hi hj => matrixIndex_lt _ _ i j hi hj, ?_, ?_, ?_⟩
  · intro i j i2 j2 hi _ hi2 _ heq
    have h1 := matrixIndex_mod niceMatrix.rows i j hi
    have h2 := matrixIndex_div niceMatrix.rows i j hi
    rw [heq, matrixIndex_mod _ _ _ hi2] at h1
    rw [heq, matrixIndex_div _ _ _ hi2] at h2
    exact ⟨h1.symm, h2.symm⟩
  · intro p hp
    have hr : 0 < niceMatrix.rows := by
      rcases Nat.eq_zero_or_pos niceMatrix.rows with h | h
      · rw [h, Nat.zero_mul] at hp; omega
      · exact h
    exact ⟨p % niceMatrix.rows, p / niceMatrix.rows, Nat.mod_lt p hr,
      Nat.div_lt_of_lt_mul hp, matrixIndex_mod_div niceMatrix.rows p⟩
  · intro hrows hcols
    refine ⟨_, convertMatrixFromNice_eq niceMatrix hrows hcols,
      bufferAfter_length niceMatrix _ _, ?_⟩
    intro p hp
    exact ⟨_, bufferAfter_full niceMatrix p hp⟩

/-- C15 at the 2-by-3 example matrix: the converter writes all six cells. -/
theorem matrixIndex_bijection_witness :
    exampleMatrix.rows < 2 ^ 31 ∧ exampleMatrix.cols < 2 ^ 31 ∧
    ∃ a, convertMatrixFromNice exampleMatrix = some a ∧
      a.pr.length = exampleMatrix.rows * exampleMatrix.cols ∧
      ∀ p, p < exampleMatrix.rows * exampleMatrix.cols → ∃ v, a.pr[p]? = some (some v) :=
  ⟨by decide, by decide, (matrixIndex_bijection exampleMatrix).2.2.2 (by decide) (by decide)⟩

/-- C15 as stated, for every `r` and `c`, fails: for `r = 1` and
`c = 2^31 + 1`, and for `r = 2^31 + 1` and `c = 1`, an `int` counter overflows
before the last cell is reached, so the converter returns no buffer in which
every one of the `r * c` cells is written. -/
theorem convertMatrixFromNice_cells_unwritten :
    (¬ ∃ a, convertMatrixFromNice exampleWideMatrix = some a ∧
      ∀ p, p < exampleWideMatrix.rows * exampleWideMatrix.cols →
        ∃ v, a.pr[p]? = some (some v)) ∧
    (¬ ∃ a, convertMatrixFromNice exampleTallMatrix = some a ∧
      ∀ p, p < exampleTallMatrix.rows * exampleTallMatrix.cols →
        ∃ v, a.pr[p]? = some (some v)) := by
  have hwide : convertMatrixFromNice exampleWideMatrix = none :=
    convertMatrixFromNice_cols_overflow exampleWideMatrix (by decide) (by decide)
  have htall : convertMatrixFromNice exampleTallMatrix = none :=
    convertMatrixFromNice_rows_overflow exampleTallMatrix (by decide)
  constructor
  · rintro ⟨a, ha, _⟩
    rw [hwide] at ha
    exact Option.noConfusion ha
  · rintro ⟨a, ha, _⟩
    rw [htall] at ha
    exact Option.noConfusion ha

/-- In an index type of `w` bits that can count the cells of the buffer, the
index expression does not wrap. -/
theorem matrixIndex_machine (w r c i j : Nat) (hfit : r * c ≤ 2 ^ w) (hi : i < r) (hj : j < c) :
    matrixIndex r i j % 2 ^ w = matrixIndex r i j :=
  Nat.mod_eq_of_lt (lt_of_lt_of_le (matrixIndex_lt r c i j hi hj) hfit)

end GPHIK
